import Mathlib

/-!
Shallow embedding of the `rohan` CLI (OpenAPI → k6 test generator),
source files `src/commands.rs`, `src/config.rs`, `src/main.rs`.

The embedding models:
* `test_name_to_filename` (commands.rs, lines 12-43): sanitize, collapse
  underscore runs, trim trailing underscores, wrap in `test_...js`;
* the script-write callback of `build_from_plan` (commands.rs, lines 156-183):
  manifest accumulation, skip-if-exists policy, file contents;
* the `build_from_plan` orchestration (commands.rs, lines 121-218);
* `Config::load` (config.rs, lines 23-33).

Character classification follows Rust's `char` API on the ASCII plane:
`char::to_ascii_lowercase` is modelled exactly (it only maps bytes 65-90,
i.e. A-Z, to +32 and leaves every other scalar value unchanged), and
`char::is_alphanumeric` is modelled by its restriction to ASCII
(digits 48-57, uppercase 65-90, lowercase 97-122); universal theorems about
names therefore quantify over ASCII strings, where the model is exact.
-/

namespace Rohan

/-- Rust `char::to_ascii_lowercase`: maps A-Z (scalar values 65-90) to the
corresponding lowercase letter and leaves every other character unchanged. -/
def to_ascii_lowercase (c : Char) : Char :=
  if 65 ≤ c.toNat ∧ c.toNat ≤ 90 then Char.ofNat (c.toNat + 32) else c

/-- Rust `char::is_alphanumeric` restricted to the ASCII plane: digits 0-9
(48-57), letters A-Z (65-90) and a-z (97-122). On ASCII input this agrees
exactly with Rust; the full Unicode tables are outside the model. -/
def is_alphanumeric (c : Char) : Bool :=
  decide ((48 ≤ c.toNat ∧ c.toNat ≤ 57) ∨ (65 ≤ c.toNat ∧ c.toNat ≤ 90) ∨
    (97 ≤ c.toNat ∧ c.toNat ≤ 122))

/-- The sanitizing map of `test_name_to_filename` (commands.rs lines 13-22):
alphanumeric characters are lowercased, every other character becomes `_`. -/
def sanitizeChar (c : Char) : Char :=
  if is_alphanumeric c then to_ascii_lowercase c else '_'

/-- The collapsing loop of `test_name_to_filename` (commands.rs lines 25-37),
with the `result` accumulator and the `prev_underscore` flag made explicit:
an underscore is pushed only when the previous character was not an
underscore and the accumulator is non-empty. -/
def collapseGo : List Char → List Char → Bool → List Char
  | [], res, _ => res
  | c :: rest, res, prev =>
    if c = '_' then
      if prev = false ∧ res ≠ [] then collapseGo rest (res ++ ['_']) true
      else collapseGo rest res true
    else collapseGo rest (res ++ [c]) false

/-- Rust `str::trim_end_matches('_')` (commands.rs line 40): remove every
trailing underscore. -/
def trimEndUnderscores : List Char → List Char
  | [] => []
  | c :: rest =>
    if trimEndUnderscores rest = [] then if c = '_' then [] else [c]
    else c :: trimEndUnderscores rest

/-- `test_name_to_filename` (commands.rs lines 12-43): sanitize every
character, collapse runs of underscores (dropping leading ones), trim
trailing underscores, and wrap the result as `format!("test_\x7b\x7d.js", result)`. -/
def test_name_to_filename (name : String) : String :=
  let sanitized := name.data.map sanitizeChar
  let result := trimEndUnderscores (collapseGo sanitized [] false)
  String.mk ("test_".data ++ result ++ ".js".data)

/-- Structural reformulation of the collapsing loop once the accumulator is
non-empty: with `prev` set, underscores are dropped; otherwise a single
underscore is emitted and `prev` is set. Proved equal to `collapseGo` below. -/
def collapseAfter : List Char → Bool → List Char
  | [], _ => []
  | c :: rest, prev =>
    if c = '_' then
      if prev then collapseAfter rest true else '_' :: collapseAfter rest true
    else c :: collapseAfter rest false

/-- Structural reformulation of the collapsing loop from the empty
accumulator: leading underscores are dropped entirely, and from the first
other character on the loop behaves as `collapseAfter`. -/
def collapseLead : List Char → List Char
  | [] => []
  | c :: rest => if c = '_' then collapseLead rest else c :: collapseAfter rest false

/-! Properties of derived filenames, used to state the naming-convention
claims. -/

/-- True when the character list contains two adjacent underscores. -/
def noAdjacentUnderscores : List Char → Bool
  | c1 :: c2 :: rest =>
    (!(c1 = '_' ∧ c2 = '_')) && noAdjacentUnderscores (c2 :: rest)
  | _ => true

/-- True when the string contains an ASCII uppercase letter (A-Z). -/
def hasAsciiUpper (s : String) : Bool :=
  s.data.any fun c => decide (65 ≤ c.toNat ∧ c.toNat ≤ 90)

/-- True when the string ends in `_.js`, i.e. an underscore stands
immediately before the `.js` suffix. -/
def underscoreBeforeJs (s : String) : Bool :=
  decide (s.data.reverse.take 4 = ['s', 'j', '.', '_'])

/-- A character list is ASCII when every scalar value is below 128; on such
input the model of Rust's character classification is exact. -/
def allAscii (l : List Char) : Bool :=
  l.all fun c => decide (c.toNat < 128)

/-! The artifact sink of the build phase (commands.rs lines 146-203).

The output directory is modelled as an association list from filename to
file contents; `fs::write` replaces any previous entry for the same name.
A `SinkState` bundles the directory with the manifest entries and the
counter that the callback closure captures (`manifest_entries`, `counter`,
commands.rs lines 151-154; both start at zero/empty for each build run). -/

/-- One manifest entry, the `json!({"id": id, "name": test_name,
"file": filename})` object of commands.rs lines 168-172. -/
structure ManifestEntry where
  id : Nat
  name : String
  file : String
deriving DecidableEq

/-- The output directory: filename to contents. -/
abbrev FileSys := List (String × String)

/-- `Path::exists` for the modelled directory. -/
def fsExists (fs : FileSys) (f : String) : Bool :=
  fs.any fun p => p.1 = f

/-- `fs::write`: create or replace the file `f` with contents `c`. -/
def fsWrite (fs : FileSys) (f c : String) : FileSys :=
  (f, c) :: fs.filter fun p => ¬ p.1 = f

/-- Read a file's contents, `none` when absent. -/
def fsRead (fs : FileSys) (f : String) : Option String :=
  (fs.find? fun p => p.1 = f).map fun p => p.2

/-- State threaded through the write callback: the output directory, the
accumulated manifest entries, and the id counter. -/
structure SinkState where
  fs : FileSys
  manifest : List ManifestEntry
  counter : Nat
deriving DecidableEq

/-- The file contents written for one test script (commands.rs line 180):
`format!("// Test: \x7b\x7d\n// Generated by Rohan\n\n\x7b\x7d", test_name, code)`. -/
def scriptContents (test_name code : String) : String :=
  "// Test: " ++ test_name ++ "\n// Generated by Rohan\n\n" ++ code

/-- The `write_callback` closure (commands.rs lines 156-183): derive the
filename, bump the counter, append a manifest entry, then either skip
(`Ok(false)`) when the file exists and overwrite is off, or write the file
and return `Ok(true)`. The `Err` branch of the Rust closure can only arise
from `fs::write`, whose failure is outside the filesystem model. -/
def write_callback (overwrite : Bool) (st : SinkState) (test_name code : String) :
    SinkState × Except String Bool :=
  let filename := test_name_to_filename test_name
  let id := st.counter + 1
  let manifest := st.manifest ++ [⟨id, test_name, filename⟩]
  if fsExists st.fs filename ∧ overwrite = false then
    (⟨st.fs, manifest, id⟩, Except.ok false)
  else
    (⟨fsWrite st.fs filename (scriptContents test_name code), manifest, id⟩,
      Except.ok true)

/-- Modelled from the spec: `build_scripts_from_plan` (crate module
`generator`, not among the provided sources) drives the LLM workers and,
per §4.6 of the design, invokes the streaming callback exactly once per
completed item, in completion order. A build run is therefore modelled as
the fold of `write_callback` over the completed artifacts, each a
`(test name, generated code)` pair. -/
def runCallbacks (overwrite : Bool) (st : SinkState) :
    List (String × String) → SinkState
  | [] => st
  | (n, c) :: rest => runCallbacks overwrite (write_callback overwrite st n c).1 rest

/-- The manifest entries a build run is expected to accumulate: one entry
per artifact in callback-invocation order, with consecutive ids continuing
from `counter`. Used to state the manifest claims. -/
def expectedManifest (counter : Nat) : List (String × String) → List ManifestEntry
  | [] => []
  | (n, _) :: rest =>
    ⟨counter + 1, n, test_name_to_filename n⟩ :: expectedManifest (counter + 1) rest

/-! The `build_from_plan` command (commands.rs lines 121-218). -/

/-- The fields of the loaded `TestPlan` that the build command inspects. -/
structure TestPlan where
  api_title : String
  api_version : String
  e2e : Bool

/-- The build command's arguments that the modelled behaviour depends on. -/
structure BuildArgs where
  e2e : Bool
  overwrite : Bool

/-- The observable outcome of a successful build run: whether the
mode-mismatch warning was printed (commands.rs lines 129-135), the mode the
generation actually ran in (the plan's own mode, since the plan itself is
handed to the generator at line 188), the final sink state, and the
contents written to `manifest.json` once at the end (lines 199-202). -/
structure BuildRun where
  warnedMismatch : Bool
  generationMode : Bool
  final : SinkState
  manifestFile : List ManifestEntry
deriving DecidableEq

/-- The body of `build_from_plan` after the plan has loaded: warn on a mode
mismatch but continue, run the generation with the incremental write
callback starting from a fresh manifest and counter, then flush the
manifest once. -/
def buildWithPlan (args : BuildArgs) (plan : TestPlan)
    (artifacts : List (String × String)) (fs0 : FileSys) : BuildRun :=
  let st := runCallbacks args.overwrite ⟨fs0, [], 0⟩ artifacts
  { warnedMismatch := plan.e2e ≠ args.e2e
    generationMode := plan.e2e
    final := st
    manifestFile := st.manifest }

/-- `build_from_plan` (commands.rs line 124): `TestPlan::load(&args.plan_path)?`
propagates a load failure before anything else happens; on success the run
proceeds as `buildWithPlan`. The load result is a parameter since file I/O
is outside the model. -/
def build_from_plan (args : BuildArgs) (planLoad : Except String TestPlan)
    (artifacts : List (String × String)) (fs0 : FileSys) :
    Except String BuildRun :=
  match planLoad with
  | Except.error e => Except.error e
  | Except.ok plan => Except.ok (buildWithPlan args plan artifacts fs0)

/-! `Config::load` (config.rs lines 23-33). -/

/-- The `Config` structure of config.rs lines 11-18; `Default` derives to
all-`None` fields. -/
structure Config where
  target : Option String
  api_base : Option String
  model : Option String
deriving DecidableEq

/-- The derived `Config::default()`: every field `None`. -/
def Config.defaultConfig : Config := ⟨none, none, none⟩

/-- The possible states of `rohan.config.json` as `Config::load` observes
them: the path does not exist, `fs::read_to_string` fails, or it yields the
file's text. -/
inductive ConfigFile where
  | absent
  | unreadable
  | content (s : String)

/-- `Config::load` (config.rs lines 23-33): if the file exists, reads, and
parses, return the parsed config; in every other case fall through to
`Config::default()`. The JSON parser (`serde_json::from_str`) is a
parameter returning `none` on invalid input. -/
def Config.load (parse : String → Option Config) (file : ConfigFile) : Config :=
  match file with
  | ConfigFile.absent => Config.defaultConfig
  | ConfigFile.unreadable => Config.defaultConfig
  | ConfigFile.content s =>
    match parse s with
    | some config => config
    | none => Config.defaultConfig

end Rohan

namespace Rohan

/-- Claim C1: `test_name_to_filename` maps the spec's three example inputs
exactly as stated: `"Get_Message_With_AckTimeout"` to
`"test_get_message_with_acktimeout.js"`, `"Test: API/Endpoint (v2)"` to
`"test_test_api_endpoint_v2.js"`, and `"---Test Name---"` to
`"test_test_name.js"`. -/
theorem C1_filename_examples :
    test_name_to_filename "Get_Message_With_AckTimeout"
        = "test_get_message_with_acktimeout.js" ∧
    test_name_to_filename "Test: API/Endpoint (v2)"
        = "test_test_api_endpoint_v2.js" ∧
    test_name_to_filename "---Test Name---" = "test_test_name.js" := by
  refine ⟨?_, ?_, ?_⟩ <;> rfl

/-! Manifest and counter bookkeeping of the write callback. -/

theorem write_callback_state (ow : Bool) (st : SinkState) (n c : String) :
    (write_callback ow st n c).1.manifest
        = st.manifest ++ [⟨st.counter + 1, n, test_name_to_filename n⟩] ∧
    (write_callback ow st n c).1.counter = st.counter + 1 := by
  simp only [write_callback]
  split <;> exact ⟨rfl, rfl⟩

theorem runCallbacks_state (ow : Bool) (arts : List (String × String)) :
    ∀ st : SinkState,
      (runCallbacks ow st arts).manifest
          = st.manifest ++ expectedManifest st.counter arts ∧
      (runCallbacks ow st arts).counter = st.counter + arts.length := by
  induction arts with
  | nil => intro st; simp [runCallbacks, expectedManifest]
  | cons a rest ih =>
    intro st
    obtain ⟨n, c⟩ := a
    have hw := write_callback_state ow st n c
    have hr := ih (write_callback ow st n c).1
    refine ⟨?_, ?_⟩
    · rw [runCallbacks, hr.1, hw.1, hw.2, expectedManifest]
      simp
    · rw [runCallbacks, hr.2, hw.2, List.length_cons]
      omega

theorem expectedManifest_length (arts : List (String × String)) :
    ∀ k, (expectedManifest k arts).length = arts.length := by
  induction arts with
  | nil => intro k; rfl
  | cons a rest ih =>
    intro k
    obtain ⟨n, c⟩ := a
    simp [expectedManifest, ih]

theorem expectedManifest_getElem (arts : List (String × String)) :
    ∀ k i, (expectedManifest k arts)[i]?
        = (arts[i]?).map fun p =>
            (⟨k + i + 1, p.1, test_name_to_filename p.1⟩ : ManifestEntry) := by
  induction arts with
  | nil => intro k i; simp [expectedManifest]
  | cons a rest ih =>
    intro k i
    obtain ⟨n, c⟩ := a
    cases i with
    | zero => simp [expectedManifest]
    | succ j =>
      simp only [expectedManifest, List.getElem?_cons_succ, ih (k + 1) j]
      simp only [show ∀ m : Nat, k + 1 + m + 1 = k + (m + 1) + 1 from fun m => by omega]

theorem expectedManifest_take (arts : List (String × String)) :
    ∀ k n, expectedManifest k (arts.take n) = (expectedManifest k arts).take n := by
  induction arts with
  | nil => intro k n; simp [expectedManifest]
  | cons a rest ih =>
    intro k n
    obtain ⟨m, c⟩ := a
    cases n with
    | zero => simp [expectedManifest]
    | succ j => simp [expectedManifest, List.take_succ_cons, ih]

/-- Claim C3: when the target file already exists and the overwrite flag is
false, the write callback returns `Ok(false)` (a skipped outcome, not an
error) and leaves the output directory, hence the existing file's contents,
unchanged. -/
theorem C3_skip_existing (st : SinkState) (n code : String)
    (hex : fsExists st.fs (test_name_to_filename n) = true) :
    (write_callback false st n code).2 = Except.ok false ∧
    (write_callback false st n code).1.fs = st.fs := by
  unfold write_callback
  rw [if_pos ⟨hex, rfl⟩]
  exact ⟨rfl, rfl⟩

/-- Witness for C3 at a concrete state where `test_a.js` already exists. -/
theorem C3_skip_existing_witness :
    fsExists [("test_a.js", "old")] (test_name_to_filename "a") = true ∧
    (write_callback false ⟨[("test_a.js", "old")], [], 0⟩ "a" "code").2
        = Except.ok false ∧
    (write_callback false ⟨[("test_a.js", "old")], [], 0⟩ "a" "code").1.fs
        = [("test_a.js", "old")] :=
  ⟨by decide, C3_skip_existing ⟨[("test_a.js", "old")], [], 0⟩ "a" "code" (by decide)⟩

/-! Filesystem facts about the write callback, used for the idempotency
claim. -/

theorem write_callback_fs_exists (ow : Bool) (st : SinkState) (n c : String) :
    fsExists (write_callback ow st n c).1.fs (test_name_to_filename n) = true := by
  simp only [write_callback]
  split
  · rename_i hc
    exact hc.1
  · simp [fsExists, fsWrite]

theorem write_callback_fs_mono (ow : Bool) (st : SinkState) (n c f : String)
    (h : fsExists st.fs f = true) :
    fsExists (write_callback ow st n c).1.fs f = true := by
  simp only [write_callback]
  split
  · exact h
  · simp only [fsExists, fsWrite, List.any_cons, Bool.or_eq_true]
    by_cases hg : test_name_to_filename n = f
    · left
      exact decide_eq_true hg
    · right
      rcases List.any_eq_true.mp h with ⟨p, hp, hpf⟩
      apply List.any_eq_true.mpr
      refine ⟨p, List.mem_filter.mpr ⟨hp, ?_⟩, hpf⟩
      have hpf' : p.1 = f := of_decide_eq_true hpf
      exact decide_eq_true (by rw [hpf']; exact fun he => hg he.symm)

theorem runCallbacks_fs_mono (ow : Bool) (arts : List (String × String)) :
    ∀ (st : SinkState) (f : String), fsExists st.fs f = true →
      fsExists (runCallbacks ow st arts).fs f = true := by
  induction arts with
  | nil => intro st f h; exact h
  | cons a rest ih =>
    intro st f h
    obtain ⟨n, c⟩ := a
    rw [runCallbacks]
    exact ih _ f (write_callback_fs_mono ow st n c f h)

theorem runCallbacks_all_exist (ow : Bool) (arts : List (String × String)) :
    ∀ (st : SinkState) (p : String × String), p ∈ arts →
      fsExists (runCallbacks ow st arts).fs (test_name_to_filename p.1) = true := by
  induction arts with
  | nil => intro st p hp; cases hp
  | cons a rest ih =>
    intro st p hp
    obtain ⟨n, c⟩ := a
    rw [runCallbacks]
    rcases List.mem_cons.mp hp with rfl | hp'
    · exact runCallbacks_fs_mono ow rest _ _ (write_callback_fs_exists ow st n c)
    · exact ih _ p hp'

theorem runCallbacks_skip (arts : List (String × String)) :
    ∀ st : SinkState,
      (∀ p ∈ arts, fsExists st.fs (test_name_to_filename p.1) = true) →
      (runCallbacks false st arts).fs = st.fs := by
  induction arts with
  | nil => intro st _; rfl
  | cons a rest ih =>
    intro st h
    obtain ⟨n, c⟩ := a
    rw [runCallbacks]
    have hn : fsExists st.fs (test_name_to_filename n) = true :=
      h (n, c) (List.mem_cons_self _ _)
    have hstep : (write_callback false st n c).1
        = ⟨st.fs, st.manifest ++ [⟨st.counter + 1, n, test_name_to_filename n⟩],
            st.counter + 1⟩ := by
      unfold write_callback
      rw [if_pos ⟨hn, rfl⟩]
    rw [hstep]
    exact ih _ (fun p hp => h p (List.mem_cons_of_mem _ hp))

/-- Claim C4: rebuilding over the same output directory without overwrite,
with the same artifacts, leaves every file's contents untouched (the whole
directory is unchanged: every write is skipped because the target exists),
and each run's manifest has one entry per distinct artifact. -/
theorem C4_idempotent_build (args : BuildArgs) (plan : TestPlan)
    (arts : List (String × String)) (fs0 : FileSys)
    (hov : args.overwrite = false) (hnd : arts.Nodup) :
    (buildWithPlan args plan arts (buildWithPlan args plan arts fs0).final.fs).final.fs
        = (buildWithPlan args plan arts fs0).final.fs ∧
    (buildWithPlan args plan arts fs0).manifestFile.length = arts.dedup.length ∧
    (buildWithPlan args plan arts
        (buildWithPlan args plan arts fs0).final.fs).manifestFile.length
        = arts.dedup.length := by
  obtain ⟨ae, ao⟩ := args
  have hao : ao = false := hov
  subst hao
  have hded : arts.dedup = arts := List.Nodup.dedup hnd
  have hlen : ∀ fs : FileSys,
      (buildWithPlan ⟨ae, false⟩ plan arts fs).manifestFile.length = arts.length := by
    intro fs
    show (runCallbacks false ⟨fs, [], 0⟩ arts).manifest.length = arts.length
    rw [(runCallbacks_state false arts ⟨fs, [], 0⟩).1]
    simp [expectedManifest_length]
  refine ⟨?_, by rw [hlen, hded], by rw [hlen, hded]⟩
  show (runCallbacks false
      ⟨(buildWithPlan ⟨ae, false⟩ plan arts fs0).final.fs, [], 0⟩ arts).fs
    = (buildWithPlan ⟨ae, false⟩ plan arts fs0).final.fs
  apply runCallbacks_skip
  intro p hp
  exact runCallbacks_all_exist false arts ⟨fs0, [], 0⟩ p hp

/-- Witness for C4 on a one-artifact rebuild over an initially empty
directory. -/
theorem C4_idempotent_build_witness :
    (buildWithPlan ⟨false, false⟩ ⟨"t", "v", false⟩ [("A", "x")]
        (buildWithPlan ⟨false, false⟩ ⟨"t", "v", false⟩ [("A", "x")] []).final.fs).final.fs
      = (buildWithPlan ⟨false, false⟩ ⟨"t", "v", false⟩ [("A", "x")] []).final.fs ∧
    (buildWithPlan ⟨false, false⟩ ⟨"t", "v", false⟩ [("A", "x")] []).manifestFile.length
      = [("A", "x")].dedup.length ∧
    (buildWithPlan ⟨false, false⟩ ⟨"t", "v", false⟩ [("A", "x")]
        (buildWithPlan ⟨false, false⟩ ⟨"t", "v", false⟩
          [("A", "x")] []).final.fs).manifestFile.length
      = [("A", "x")].dedup.length :=
  C4_idempotent_build ⟨false, false⟩ ⟨"t", "v", false⟩ [("A", "x")] [] rfl (by decide)

/-- Claim C5: the manifest flushed at the end of a build run is exactly the
final accumulated manifest, with one `{id, name, file}` entry per artifact
the callback was invoked on — skipped writes included — in invocation
order. -/
theorem C5_manifest_contents (args : BuildArgs) (plan : TestPlan)
    (arts : List (String × String)) (fs0 : FileSys) :
    (buildWithPlan args plan arts fs0).manifestFile
        = (buildWithPlan args plan arts fs0).final.manifest ∧
    (buildWithPlan args plan arts fs0).manifestFile.length = arts.length ∧
    ∀ i, ((buildWithPlan args plan arts fs0).manifestFile)[i]?
        = (arts[i]?).map fun p =>
            (⟨i + 1, p.1, test_name_to_filename p.1⟩ : ManifestEntry) := by
  have h := runCallbacks_state args.overwrite arts ⟨fs0, [], 0⟩
  refine ⟨rfl, ?_, ?_⟩
  · show (runCallbacks args.overwrite ⟨fs0, [], 0⟩ arts).manifest.length = arts.length
    rw [h.1]
    simp [expectedManifest_length]
  · intro i
    show (runCallbacks args.overwrite ⟨fs0, [], 0⟩ arts).manifest[i]? = _
    rw [h.1]
    simpa using expectedManifest_getElem arts 0 i

/-- Claim C6: manifest entry ids strictly increase in entry order, the
`i`-th entry has id `i + 1` (ids start at 1), and the manifest after
processing the first `k` artifacts is exactly the first `k` entries —
each entry is appended at the moment its artifact is processed. -/
theorem C6_manifest_ids (ow : Bool) (fs0 : FileSys) (arts : List (String × String)) :
    ((runCallbacks ow ⟨fs0, [], 0⟩ arts).manifest.Pairwise fun a b => a.id < b.id) ∧
    (∀ i e, ((runCallbacks ow ⟨fs0, [], 0⟩ arts).manifest)[i]? = some e → e.id = i + 1) ∧
    (∀ k, (runCallbacks ow ⟨fs0, [], 0⟩ (arts.take k)).manifest
        = ((runCallbacks ow ⟨fs0, [], 0⟩ arts).manifest).take k) := by
  have h := runCallbacks_state ow arts ⟨fs0, [], 0⟩
  have hid : ∀ i e, ((runCallbacks ow ⟨fs0, [], 0⟩ arts).manifest)[i]? = some e →
      e.id = i + 1 := by
    intro i e he
    rw [h.1] at he
    simp only [List.nil_append] at he
    rw [expectedManifest_getElem arts 0 i] at he
    rcases Option.map_eq_some'.mp he with ⟨p, hp, hfe⟩
    rw [← hfe]
    simp
  refine ⟨?_, hid, ?_⟩
  · rw [List.pairwise_iff_getElem]
    intro i j hi hj hij
    have hie := hid i _ (List.getElem?_eq_getElem hi)
    have hje := hid j _ (List.getElem?_eq_getElem hj)
    rw [hie, hje]
    omega
  · intro k
    have hk := runCallbacks_state ow (arts.take k) ⟨fs0, [], 0⟩
    rw [hk.1, h.1]
    simp only [List.nil_append]
    exact expectedManifest_take arts 0 k

/-- Witness for C6 at a concrete two-artifact run: the second manifest
entry carries id 2. -/
theorem C6_manifest_ids_witness :
    (⟨2, "B", "test_b.js"⟩ : ManifestEntry).id = 2 :=
  (C6_manifest_ids false [] [("A", "x"), ("B", "y")]).2.1 1 ⟨2, "B", "test_b.js"⟩
    (by decide)

/-- Claim C7: a plan-file load failure propagates out of `build_from_plan`
immediately: the run aborts with the error and no build run (no script
generation, file write, or manifest write) takes place. -/
theorem C7_plan_load_aborts (args : BuildArgs) (e : String)
    (arts : List (String × String)) (fs0 : FileSys) :
    build_from_plan args (Except.error e) arts fs0 = Except.error e := rfl

/-- Claim C8: `Config::load` is total — it returns a `Config` for every
file state — and on an absent file, an unreadable file, or unparseable
contents it returns the default configuration with `target`, `api_base`
and `model` all `None`. -/
theorem C8_config_load_total (parse : String → Option Config) :
    Config.load parse ConfigFile.absent = Config.defaultConfig ∧
    Config.load parse ConfigFile.unreadable = Config.defaultConfig ∧
    ∀ s, parse s = none →
      Config.load parse (ConfigFile.content s) = Config.defaultConfig := by
  refine ⟨rfl, rfl, ?_⟩
  intro s hp
  simp [Config.load, hp]

/-- Witness for C8 with a parser that rejects the concrete contents. -/
theorem C8_config_load_total_witness :
    Config.load (fun _ => none) (ConfigFile.content "not json") = Config.defaultConfig :=
  (C8_config_load_total (fun _ => none)).2.2 "not json" rfl

/-- Claim C9: when the plan's e2e mode differs from the `--e2e` flag,
`build_from_plan` still succeeds, records the mismatch warning, and runs
the generation in the plan's own mode. -/
theorem C9_mode_mismatch_warns (args : BuildArgs) (plan : TestPlan)
    (arts : List (String × String)) (fs0 : FileSys) (h : plan.e2e ≠ args.e2e) :
    build_from_plan args (Except.ok plan) arts fs0
        = Except.ok (buildWithPlan args plan arts fs0) ∧
    (buildWithPlan args plan arts fs0).warnedMismatch = true ∧
    (buildWithPlan args plan arts fs0).generationMode = plan.e2e := by
  refine ⟨rfl, ?_, rfl⟩
  show decide (plan.e2e ≠ args.e2e) = true
  exact decide_eq_true h

/-- Witness for C9 on an e2e plan built without the e2e flag. -/
theorem C9_mode_mismatch_warns_witness :
    build_from_plan ⟨false, false⟩ (Except.ok ⟨"t", "v", true⟩) [] []
        = Except.ok (buildWithPlan ⟨false, false⟩ ⟨"t", "v", true⟩ [] []) ∧
    (buildWithPlan ⟨false, false⟩ ⟨"t", "v", true⟩ [] []).warnedMismatch = true ∧
    (buildWithPlan ⟨false, false⟩ ⟨"t", "v", true⟩ [] []).generationMode = true :=
  C9_mode_mismatch_warns ⟨false, false⟩ ⟨"t", "v", true⟩ [] [] (by decide)

/-- Claim C10: whenever the write callback reports `Ok(true)`, the file it
wrote holds exactly the two comment lines, a blank line, and the generated
code verbatim. -/
theorem C10_script_contents (ow : Bool) (st : SinkState) (n code : String)
    (h : (write_callback ow st n code).2 = Except.ok true) :
    fsRead (write_callback ow st n code).1.fs (test_name_to_filename n)
        = some ("// Test: " ++ n ++ "\n// Generated by Rohan\n\n" ++ code) := by
  by_cases hc : fsExists st.fs (test_name_to_filename n) = true ∧ ow = false
  · exfalso
    simp only [write_callback] at h
    rw [if_pos hc] at h
    exact Bool.false_ne_true (Except.ok.inj h)
  · simp only [write_callback]
    rw [if_neg hc]
    simp [fsRead, fsWrite, scriptContents]

/-- Witness for C10 on a write into an empty directory. -/
theorem C10_script_contents_witness :
    (write_callback true ⟨[], [], 0⟩ "a" "x").2 = Except.ok true ∧
    fsRead (write_callback true ⟨[], [], 0⟩ "a" "x").1.fs (test_name_to_filename "a")
        = some ("// Test: " ++ "a" ++ "\n// Generated by Rohan\n\n" ++ "x") :=
  ⟨rfl, C10_script_contents true ⟨[], [], 0⟩ "a" "x" rfl⟩

/-! Character-level facts about the sanitizing map. -/

theorem to_ascii_lowercase_toNat (c : Char) (h1 : 65 ≤ c.toNat) (h2 : c.toNat ≤ 90) :
    (to_ascii_lowercase c).toNat = c.toNat + 32 := by
  unfold to_ascii_lowercase
  rw [if_pos ⟨h1, h2⟩]
  have hv : (c.toNat + 32).isValidChar := Or.inl (by omega)
  rw [Char.ofNat, dif_pos hv]
  rfl

theorem sanitizeChar_not_upper (c : Char) :
    ¬(65 ≤ (sanitizeChar c).toNat ∧ (sanitizeChar c).toNat ≤ 90) := by
  unfold sanitizeChar
  by_cases h : is_alphanumeric c = true
  · rw [if_pos h]
    unfold is_alphanumeric at h
    rw [decide_eq_true_iff] at h
    rcases h with h | h | h
    · unfold to_ascii_lowercase
      rw [if_neg (by omega)]
      omega
    · rw [to_ascii_lowercase_toNat c h.1 h.2]
      omega
    · unfold to_ascii_lowercase
      rw [if_neg (by omega)]
      omega
  · rw [if_neg h]
    decide

theorem sanitizeChar_of_alnum (c : Char) (h : is_alphanumeric c = true) :
    sanitizeChar c ≠ '_' := by
  unfold sanitizeChar
  rw [if_pos h]
  unfold is_alphanumeric at h
  rw [decide_eq_true_iff] at h
  intro he
  have h95 : (to_ascii_lowercase c).toNat = 95 := by rw [he]; rfl
  rcases h with h | h | h
  · unfold to_ascii_lowercase at h95
    rw [if_neg (by omega)] at h95
    omega
  · rw [to_ascii_lowercase_toNat c h.1 h.2] at h95
    omega
  · unfold to_ascii_lowercase at h95
    rw [if_neg (by omega)] at h95
    omega

/-! Equivalence of the accumulator-style collapsing loop with its
structural reformulation. -/

theorem collapseGo_append (l : List Char) :
    ∀ (res : List Char) (prev : Bool), res ≠ [] →
      collapseGo l res prev = res ++ collapseAfter l prev := by
  induction l with
  | nil => intro res prev _; simp [collapseGo, collapseAfter]
  | cons c rest ih =>
    intro res prev hres
    by_cases hc : c = '_'
    · subst hc
      cases prev with
      | false =>
        rw [collapseGo, if_pos rfl, if_pos ⟨rfl, hres⟩]
        rw [ih (res ++ ['_']) true (by simp)]
        rw [collapseAfter, if_pos rfl, if_neg Bool.false_ne_true]
        simp
      | true =>
        rw [collapseGo, if_pos rfl, if_neg (by simp)]
        rw [ih res true hres]
        rw [collapseAfter, if_pos rfl, if_pos rfl]
    · rw [collapseGo, if_neg hc]
      rw [ih (res ++ [c]) false (by simp)]
      rw [collapseAfter, if_neg hc]
      simp

theorem collapseGo_nil_acc (l : List Char) :
    ∀ prev, collapseGo l [] prev = collapseLead l := by
  induction l with
  | nil => intro prev; rfl
  | cons c rest ih =>
    intro prev
    by_cases hc : c = '_'
    · subst hc
      rw [collapseGo, if_pos rfl, if_neg (by simp), ih true, collapseLead, if_pos rfl]
    · rw [collapseGo, if_neg hc]
      simp only [List.nil_append]
      rw [collapseGo_append rest [c] false (by simp)]
      rw [collapseLead, if_neg hc]
      simp

/-! Properties of the structural collapsing functions. -/

theorem collapseAfter_mem (l : List Char) :
    ∀ prev c, c ∈ collapseAfter l prev → c ∈ l := by
  induction l with
  | nil => intro prev c h; simp [collapseAfter] at h
  | cons d rest ih =>
    intro prev c h
    by_cases hd : d = '_'
    · subst hd
      cases prev with
      | true =>
        rw [collapseAfter, if_pos rfl, if_pos rfl] at h
        exact List.mem_cons_of_mem _ (ih true c h)
      | false =>
        rw [collapseAfter, if_pos rfl, if_neg Bool.false_ne_true] at h
        rcases List.mem_cons.mp h with rfl | h'
        · exact List.mem_cons_self _ _
        · exact List.mem_cons_of_mem _ (ih true c h')
    · rw [collapseAfter, if_neg hd] at h
      rcases List.mem_cons.mp h with rfl | h'
      · exact List.mem_cons_self _ _
      · exact List.mem_cons_of_mem _ (ih false c h')

theorem collapseLead_mem (l : List Char) :
    ∀ c, c ∈ collapseLead l → c ∈ l := by
  induction l with
  | nil => intro c h; simp [collapseLead] at h
  | cons d rest ih =>
    intro c h
    by_cases hd : d = '_'
    · rw [collapseLead, if_pos hd] at h
      exact List.mem_cons_of_mem _ (ih c h)
    · rw [collapseLead, if_neg hd] at h
      rcases List.mem_cons.mp h with rfl | h'
      · exact List.mem_cons_self _ _
      · exact List.mem_cons_of_mem _ (collapseAfter_mem rest false c h')

theorem collapseAfter_keeps (l : List Char) :
    ∀ prev c, c ∈ l → c ≠ '_' → c ∈ collapseAfter l prev := by
  induction l with
  | nil => intro prev c h; cases h
  | cons d rest ih =>
    intro prev c h hne
    rcases List.mem_cons.mp h with rfl | h'
    · rw [collapseAfter, if_neg hne]
      exact List.mem_cons_self _ _
    · by_cases hd : d = '_'
      · subst hd
        cases prev with
        | true =>
          rw [collapseAfter, if_pos rfl, if_pos rfl]
          exact ih true c h' hne
        | false =>
          rw [collapseAfter, if_pos rfl, if_neg Bool.false_ne_true]
          exact List.mem_cons_of_mem _ (ih true c h' hne)
      · rw [collapseAfter, if_neg hd]
        exact List.mem_cons_of_mem _ (ih false c h' hne)

theorem collapseLead_keeps (l : List Char) :
    ∀ c, c ∈ l → c ≠ '_' → c ∈ collapseLead l := by
  induction l with
  | nil => intro c h; cases h
  | cons d rest ih =>
    intro c h hne
    rcases List.mem_cons.mp h with rfl | h'
    · rw [collapseLead, if_neg hne]
      exact List.mem_cons_self _ _
    · by_cases hd : d = '_'
      · rw [collapseLead, if_pos hd]
        exact ih c h' hne
      · rw [collapseLead, if_neg hd]
        exact List.mem_cons_of_mem _ (collapseAfter_keeps rest false c h' hne)

theorem noAdj_cons_cons (c1 c2 : Char) (rest : List Char) :
    noAdjacentUnderscores (c1 :: c2 :: rest)
      = ((!decide (c1 = '_' ∧ c2 = '_')) && noAdjacentUnderscores (c2 :: rest)) := rfl

theorem noAdj_tail (c : Char) (l : List Char)
    (h : noAdjacentUnderscores (c :: l) = true) :
    noAdjacentUnderscores l = true := by
  cases l with
  | nil => rfl
  | cons d rest =>
    rw [noAdj_cons_cons, Bool.and_eq_true] at h
    exact h.2

theorem noAdj_pair_left (c d : Char) (hc : c ≠ '_') :
    (!decide (c = '_' ∧ d = '_')) = true := by
  simp [hc]

theorem noAdj_pair_right (c d : Char) (hd : d ≠ '_') :
    (!decide (c = '_' ∧ d = '_')) = true := by
  simp [hd]

theorem collapseAfter_head (l : List Char) :
    ∀ t, collapseAfter l true ≠ '_' :: t := by
  induction l with
  | nil => intro t h; simp [collapseAfter] at h
  | cons c rest ih =>
    intro t h
    by_cases hc : c = '_'
    · rw [collapseAfter, if_pos hc, if_pos rfl] at h
      exact ih t h
    · rw [collapseAfter, if_neg hc] at h
      exact hc (List.cons.inj h).1

theorem collapseAfter_noAdj (l : List Char) :
    ∀ prev, noAdjacentUnderscores (collapseAfter l prev) = true := by
  induction l with
  | nil => intro prev; rfl
  | cons c rest ih =>
    intro prev
    by_cases hc : c = '_'
    · subst hc
      cases prev with
      | true =>
        rw [collapseAfter, if_pos rfl, if_pos rfl]
        exact ih true
      | false =>
        rw [collapseAfter, if_pos rfl, if_neg Bool.false_ne_true]
        cases hx : collapseAfter rest true with
        | nil => rfl
        | cons d dr =>
          rw [noAdj_cons_cons, Bool.and_eq_true]
          have hd : d ≠ '_' := by
            intro hdd
            exact collapseAfter_head rest dr (by rw [hx, hdd])
          refine ⟨noAdj_pair_right _ _ hd, ?_⟩
          have := ih true
          rw [hx] at this
          exact this
    · rw [collapseAfter, if_neg hc]
      cases hx : collapseAfter rest false with
      | nil => rfl
      | cons d dr =>
        rw [noAdj_cons_cons, Bool.and_eq_true]
        refine ⟨noAdj_pair_left _ _ hc, ?_⟩
        have := ih false
        rw [hx] at this
        exact this

theorem collapseLead_head (l : List Char) :
    ∀ t, collapseLead l ≠ '_' :: t := by
  induction l with
  | nil => intro t h; simp [collapseLead] at h
  | cons c rest ih =>
    intro t h
    by_cases hc : c = '_'
    · rw [collapseLead, if_pos hc] at h
      exact ih t h
    · rw [collapseLead, if_neg hc] at h
      exact hc (List.cons.inj h).1

theorem collapseLead_noAdj (l : List Char) :
    noAdjacentUnderscores (collapseLead l) = true := by
  induction l with
  | nil => rfl
  | cons c rest ih =>
    by_cases hc : c = '_'
    · rw [collapseLead, if_pos hc]
      exact ih
    · rw [collapseLead, if_neg hc]
      cases hx : collapseAfter rest false with
      | nil => rfl
      | cons d dr =>
        rw [noAdj_cons_cons, Bool.and_eq_true]
        refine ⟨noAdj_pair_left _ _ hc, ?_⟩
        have := collapseAfter_noAdj rest false
        rw [hx] at this
        exact this

/-! Properties of the trailing-underscore trim. -/

theorem trimEnd_mem (l : List Char) :
    ∀ c, c ∈ trimEndUnderscores l → c ∈ l := by
  induction l with
  | nil => intro c h; cases h
  | cons d rest ih =>
    intro c h
    rw [trimEndUnderscores] at h
    by_cases hr : trimEndUnderscores rest = []
    · rw [if_pos hr] at h
      by_cases hd : d = '_'
      · rw [if_pos hd] at h
        cases h
      · rw [if_neg hd] at h
        rw [List.mem_singleton.mp h]
        exact List.mem_cons_self _ _
    · rw [if_neg hr] at h
      rcases List.mem_cons.mp h with rfl | h'
      · exact List.mem_cons_self _ _
      · exact List.mem_cons_of_mem _ (ih c h')

theorem trimEnd_head (l : List Char) :
    ∀ d r, trimEndUnderscores l = d :: r → ∃ t, l = d :: t := by
  induction l with
  | nil => intro d r h; cases h
  | cons c rest ih =>
    intro d r h
    rw [trimEndUnderscores] at h
    by_cases hr : trimEndUnderscores rest = []
    · rw [if_pos hr] at h
      by_cases hc : c = '_'
      · rw [if_pos hc] at h
        cases h
      · rw [if_neg hc] at h
        exact ⟨rest, by rw [(List.cons.inj h).1]⟩
    · rw [if_neg hr] at h
      exact ⟨rest, by rw [(List.cons.inj h).1]⟩

theorem trimEnd_noAdj (l : List Char) :
    noAdjacentUnderscores l = true →
    noAdjacentUnderscores (trimEndUnderscores l) = true := by
  induction l with
  | nil => intro _; rfl
  | cons c rest ih =>
    intro h
    rw [trimEndUnderscores]
    by_cases hr : trimEndUnderscores rest = []
    · rw [if_pos hr]
      by_cases hc : c = '_'
      · rw [if_pos hc]; rfl
      · rw [if_neg hc]; rfl
    · rw [if_neg hr]
      cases hx : trimEndUnderscores rest with
      | nil => exact absurd hx hr
      | cons d dr =>
        rw [noAdj_cons_cons, Bool.and_eq_true]
        constructor
        · rcases trimEnd_head rest d dr hx with ⟨t, ht⟩
          by_cases hc : c = '_'
          · subst hc
            rw [ht, noAdj_cons_cons, Bool.and_eq_true] at h
            exact h.1
          · exact noAdj_pair_left _ _ hc
        · have h2 := ih (noAdj_tail c rest h)
          rw [hx] at h2
          exact h2

theorem trimEnd_no_trailing (l : List Char) :
    ∀ t, trimEndUnderscores l ≠ t ++ ['_'] := by
  induction l with
  | nil =>
    intro t h
    rw [trimEndUnderscores] at h
    cases t <;> simp at h
  | cons c rest ih =>
    intro t h
    rw [trimEndUnderscores] at h
    by_cases hr : trimEndUnderscores rest = []
    · rw [if_pos hr] at h
      by_cases hc : c = '_'
      · rw [if_pos hc] at h
        cases t <;> simp at h
      · rw [if_neg hc] at h
        cases t with
        | nil => exact hc (List.cons.inj h).1
        | cons x xs =>
          have h2 := (List.cons.inj h).2
          cases xs <;> simp at h2
    · rw [if_neg hr] at h
      cases t with
      | nil => exact hr (List.cons.inj h).2
      | cons x xs => exact ih xs (List.cons.inj h).2

theorem trimEnd_ne_nil (l : List Char) :
    ∀ c, c ∈ l → c ≠ '_' → trimEndUnderscores l ≠ [] := by
  induction l with
  | nil => intro c h; cases h
  | cons d rest ih =>
    intro c h hne hcontra
    rw [trimEndUnderscores] at hcontra
    by_cases hr : trimEndUnderscores rest = []
    · rw [if_pos hr] at hcontra
      by_cases hd : d = '_'
      · rcases List.mem_cons.mp h with rfl | h'
        · exact hne hd
        · exact ih c h' hne hr
      · rw [if_neg hd] at hcontra
        exact List.cons_ne_nil _ _ hcontra
    · rw [if_neg hr] at hcontra
      exact List.cons_ne_nil _ _ hcontra

/-! Assembly: the shape of every derived filename. -/

theorem test_name_to_filename_data (name : String) :
    (test_name_to_filename name).data
      = 't' :: 'e' :: 's' :: 't' :: '_' ::
        (trimEndUnderscores (collapseLead (name.data.map sanitizeChar))
          ++ ['.', 'j', 's']) := by
  simp only [test_name_to_filename]
  rw [collapseGo_nil_acc]
  rfl

theorem noAdj_append_js (l : List Char) :
    noAdjacentUnderscores l = true →
    noAdjacentUnderscores (l ++ ['.', 'j', 's']) = true := by
  induction l with
  | nil => intro _; decide
  | cons c rest ih =>
    intro h
    cases rest with
    | nil =>
      show noAdjacentUnderscores (c :: '.' :: 'j' :: 's' :: []) = true
      rw [noAdj_cons_cons, Bool.and_eq_true]
      exact ⟨noAdj_pair_right _ _ (by decide), by decide⟩
    | cons d rest2 =>
      rw [noAdj_cons_cons, Bool.and_eq_true] at h
      have h2 := ih h.2
      show noAdjacentUnderscores (c :: d :: (rest2 ++ ['.', 'j', 's'])) = true
      rw [noAdj_cons_cons, Bool.and_eq_true]
      exact ⟨h.1, h2⟩

theorem test_name_to_filename_noAdj (name : String) :
    noAdjacentUnderscores (test_name_to_filename name).data = true := by
  rw [test_name_to_filename_data]
  have hcore := trimEnd_noAdj _ (collapseLead_noAdj (name.data.map sanitizeChar))
  have hjs := noAdj_append_js _ hcore
  cases hx : trimEndUnderscores (collapseLead (name.data.map sanitizeChar)) with
  | nil => decide
  | cons d dr =>
    have hd : d ≠ '_' := by
      intro hdd
      rcases trimEnd_head _ d dr hx with ⟨t, ht⟩
      exact collapseLead_head _ t (by rw [ht, hdd])
    rw [hx] at hjs
    rw [noAdj_cons_cons, Bool.and_eq_true]
    refine ⟨noAdj_pair_left _ _ (by decide), ?_⟩
    rw [noAdj_cons_cons, Bool.and_eq_true]
    refine ⟨noAdj_pair_left _ _ (by decide), ?_⟩
    rw [noAdj_cons_cons, Bool.and_eq_true]
    refine ⟨noAdj_pair_left _ _ (by decide), ?_⟩
    rw [noAdj_cons_cons, Bool.and_eq_true]
    refine ⟨noAdj_pair_left _ _ (by decide), ?_⟩
    show noAdjacentUnderscores ('_' :: d :: (dr ++ ['.', 'j', 's'])) = true
    rw [noAdj_cons_cons, Bool.and_eq_true]
    exact ⟨noAdj_pair_right _ _ hd, hjs⟩

theorem test_name_to_filename_no_upper (name : String) :
    hasAsciiUpper (test_name_to_filename name) = false := by
  apply Bool.eq_false_iff.mpr
  intro hcon
  unfold hasAsciiUpper at hcon
  rcases List.any_eq_true.mp hcon with ⟨x, hx, hpx⟩
  have hup : 65 ≤ x.toNat ∧ x.toNat ≤ 90 := of_decide_eq_true hpx
  rw [test_name_to_filename_data] at hx
  rcases List.mem_cons.mp hx with rfl | hx
  · exact absurd hup (by decide)
  rcases List.mem_cons.mp hx with rfl | hx
  · exact absurd hup (by decide)
  rcases List.mem_cons.mp hx with rfl | hx
  · exact absurd hup (by decide)
  rcases List.mem_cons.mp hx with rfl | hx
  · exact absurd hup (by decide)
  rcases List.mem_cons.mp hx with rfl | hx
  · exact absurd hup (by decide)
  rcases List.mem_append.mp hx with hx' | hx'
  · have hx2 := collapseLead_mem _ x (trimEnd_mem _ x hx')
    rcases List.mem_map.mp hx2 with ⟨y, _, rfl⟩
    exact sanitizeChar_not_upper y hup
  · rcases List.mem_cons.mp hx' with rfl | hx'
    · exact absurd hup (by decide)
    rcases List.mem_cons.mp hx' with rfl | hx'
    · exact absurd hup (by decide)
    rcases List.mem_cons.mp hx' with rfl | hx'
    · exact absurd hup (by decide)
    cases hx'

theorem test_name_to_filename_no_underscore_js (name : String)
    (h : name.data.any is_alphanumeric = true) :
    underscoreBeforeJs (test_name_to_filename name) = false := by
  rcases List.any_eq_true.mp h with ⟨y, hy, hya⟩
  have hyne : sanitizeChar y ≠ '_' := sanitizeChar_of_alnum y hya
  have hlead : sanitizeChar y ∈ collapseLead (name.data.map sanitizeChar) :=
    collapseLead_keeps _ _ (List.mem_map_of_mem _ hy) hyne
  have hne : trimEndUnderscores (collapseLead (name.data.map sanitizeChar)) ≠ [] := by
    intro hnil
    rcases List.mem_map.mp (List.mem_map_of_mem sanitizeChar hy) with _
    exact trimEnd_ne_nil _ _ hlead hyne hnil
  unfold underscoreBeforeJs
  apply decide_eq_false
  intro hcon
  rw [test_name_to_filename_data] at hcon
  cases hx : trimEndUnderscores (collapseLead (name.data.map sanitizeChar)) with
  | nil => exact hne hx
  | cons d dr =>
    rw [hx] at hcon
    have hrevform : ('t' :: 'e' :: 's' :: 't' :: '_' ::
          ((d :: dr) ++ ['.', 'j', 's'])).reverse
        = 's' :: 'j' :: '.' :: ((d :: dr).reverse ++ ['_', 't', 's', 'e', 't']) := by
      simp
    rw [hrevform] at hcon
    cases hrev : (d :: dr).reverse with
    | nil => simp at hrev
    | cons e es =>
      rw [hrev] at hcon
      have he : e = '_' := by
        simp [List.take] at hcon
        exact hcon
      have hlist : d :: dr = es.reverse ++ ['_'] := by
        have h2 : d :: dr = (e :: es).reverse := by
          rw [← hrev, List.reverse_reverse]
        rw [h2, List.reverse_cons, he]
      exact trimEnd_no_trailing _ es.reverse (hx.trans hlist)

/-- Claim C2 (as stated) is refuted at a name with no alphanumeric
character: `"!!!"` maps to `"test_.js"`, whose underscore stands
immediately before the `.js` suffix. -/
theorem C2_convention_counterexample :
    test_name_to_filename "!!!" = "test_.js" ∧
    underscoreBeforeJs (test_name_to_filename "!!!") = true :=
  ⟨rfl, by decide⟩

/-- Claim C2 (amended): every derived filename is free of adjacent
underscores and of ASCII uppercase letters, and — provided the name
contains at least one alphanumeric character — no underscore stands
immediately before the `.js` suffix. (For a name with no alphanumeric
character the sanitized core is empty and the output is exactly
`test_.js`, as the counterexample shows.) -/
theorem C2_convention_amended (name : String) :
    noAdjacentUnderscores (test_name_to_filename name).data = true ∧
    hasAsciiUpper (test_name_to_filename name) = false ∧
    (name.data.any is_alphanumeric = true →
      underscoreBeforeJs (test_name_to_filename name) = false) :=
  ⟨test_name_to_filename_noAdj name, test_name_to_filename_no_upper name,
    test_name_to_filename_no_underscore_js name⟩

/-- Witness for the amended C2 at the name `"a b"`. -/
theorem C2_convention_amended_witness :
    ("a b".data.any is_alphanumeric = true) ∧
    noAdjacentUnderscores (test_name_to_filename "a b").data = true ∧
    hasAsciiUpper (test_name_to_filename "a b") = false ∧
    underscoreBeforeJs (test_name_to_filename "a b") = false :=
  ⟨by decide, (C2_convention_amended "a b").1, (C2_convention_amended "a b").2.1,
    (C2_convention_amended "a b").2.2 (by decide)⟩

end Rohan
